import Mathlib

/-!
Verification of the `efficient-atom` repository.

This file gives a shallow embedding of the two source files

* `src/jmp/datasets/scripts/transition1x_preprocess/trans1x_linear_ref.py`
  (the Transition1x preprocessing script with the `compute_mean_std`
  and `linref` subcommands), and
* `src/jmp/models/equiformer_v2/equiformer_v2.py`
  (the `EquiformerV2Backbone` constructor and forward control flow),

and proves the specification claims about them.  Floating point values of
the script are modelled as rationals (the claims under study are structural,
not about rounding); `numpy`/`torch` library calls are modelled by their
documented semantics.
-/

namespace Trans1x

/-- A dataset sample as the preprocessing script reads it from the LMDB
dataset: the atomic numbers of the atoms, the scalar energy target `y`,
and the per-atom force vectors (`data.force`, one row per atom). -/
structure Sample where
  atomic_numbers : List ℕ
  y : ℚ
  force : List (List ℚ)
deriving DecidableEq, Inhabited

/-- `torch.ones(n)`: a vector of `n` ones. -/
def ones (n : ℕ) : List ℚ := List.replicate n 1

/-- `torch_scatter.scatter(src, index, dim_size=dim_size)` with the default
sum reduction, as called in `_linref`: entry `j` of the result is the sum of
the `src` entries whose `index` entry equals `j`.  An index outside
`[0, dim_size)` is an out-of-bounds write and raises at runtime, modelled
as `none`. -/
def scatter_sum (src : List ℚ) (index : List ℕ) (dim_size : ℕ) :
    Option (List ℚ) :=
  if ∀ a ∈ index, a < dim_size then
    some ((List.range dim_size).map fun j =>
      (((index.zip src).filter fun p => p.1 == j).map Prod.snd).sum)
  else none

/-- The feature row `x` computed by `extract_data` inside `_linref`:
`scatter(torch.ones(num_atoms), atomic_numbers, dim_size=10)`. -/
def linref_extract_x (s : Sample) : Option (List ℚ) :=
  scatter_sum (ones s.atomic_numbers.length) s.atomic_numbers 10

/-- `extract_data` of the `linref` subcommand: returns `(x, y, f)` for one
sample (the force block `f` is extracted but unused by the reduction). -/
def extract_data_linref (s : Sample) :
    Option (List ℚ) × ℚ × List (List ℚ) :=
  (linref_extract_x s, s.y, s.force)

/-- Spec wording: the per-atomic-number atom-count vector, of width
`width`; entry `z` is the number of atoms with atomic number `z`. -/
def countVector (atomic_numbers : List ℕ) (width : ℕ) : List ℕ :=
  (List.range width).map fun z => atomic_numbers.count z

/-- Spec wording: the matrix whose row `i` is the per-atomic-number
atom-count vector of dataset sample `i` (width 10, cast to numbers). -/
def specCountMatrix (ds : List Sample) : List (List ℚ) :=
  ds.map fun s => (countVector s.atomic_numbers 10).map fun n : ℕ => (n : ℚ)

/-- Spec wording: `y i` is the energy target of dataset sample `i`. -/
def spec_targets (ds : List Sample) : List ℚ := ds.map fun s => s.y

/-- Scattering a vector of ones counts the occurrences of each index. -/
theorem scatter_ones_count (a : List ℕ) (j : ℕ) :
    (((a.zip (ones a.length)).filter fun p => p.1 == j).map Prod.snd).sum
      = (a.count j : ℚ) := by
  induction a with
  | nil => simp [ones]
  | cons x xs ih =>
    have hrep : ones (x :: xs).length = 1 :: ones xs.length := by
      simp [ones, List.replicate_succ]
    rw [hrep]
    by_cases h : x = j
    · subst h
      simp [List.count_cons, ih]
      ring
    · have hbeq : (x == j) = false := by
        simp [h]
      simp [List.count_cons, hbeq, ih, h]

/-- Dot product of a feature row with a coefficient vector
(row `i` of the matrix product `X @ c`). -/
def dot (a b : List ℚ) : ℚ := ((a.zip b).map fun p => p.1 * p.2).sum

/-- Squared residual of the coefficients `c` for the system `X·c ≈ y`. -/
def residual (X : List (List ℚ)) (y : List ℚ) (c : List ℚ) : ℚ :=
  ((X.zip y).map fun p => (dot p.1 c - p.2) ^ 2).sum

/-- `c` is a least-squares solution of `X·c ≈ y`: it minimises the sum of
squared residuals.  This is the documented contract of `np.linalg.lstsq`. -/
def IsLeastSquares (X : List (List ℚ)) (y : List ℚ) (c : List ℚ) : Prop :=
  ∀ c' : List ℚ, residual X y c ≤ residual X y c'

/-- The reduction of `_linref` after the outputs are collected:
`features`/`targets` are the first/second components of the outputs,
`X = np.vstack(features)` (meaningful only when every row was computed),
and the saved value is `np.linalg.lstsq(X, y, rcond=None)[0]`, modelled by
the abstract solver `lstsq`. -/
def linref_reduce (lstsq : List (List ℚ) → List ℚ → List ℚ)
    (outputs : List (Option (List ℚ) × ℚ × List (List ℚ))) :
    Option (List ℚ) :=
  let features : List (Option (List ℚ)) := outputs.map fun o => o.1
  let targets : List ℚ := outputs.map fun o => o.2.1
  (features.mapM id).map fun X => lstsq X targets

/-- The target vector `y` assembled by `_linref`. -/
def linref_targets (ds : List Sample) : List ℚ :=
  (ds.map extract_data_linref).map fun o => o.2.1

/-- The `linref` subcommand end to end: the coefficient vector written to
the compressed archive (`none` models a crash of a worker). -/
def linref_coeff (lstsq : List (List ℚ) → List ℚ → List ℚ)
    (ds : List Sample) : Option (List ℚ) :=
  linref_reduce lstsq (ds.map extract_data_linref)

/-- When all atomic numbers are in range, the scatter-based feature row is
the per-atomic-number count vector. -/
theorem linref_extract_x_eq (s : Sample)
    (h : ∀ a ∈ s.atomic_numbers, a < 10) :
    linref_extract_x s
      = some ((countVector s.atomic_numbers 10).map fun n : ℕ => (n : ℚ)) := by
  unfold linref_extract_x scatter_sum
  rw [if_pos h]
  congr 1
  rw [countVector, List.map_map]
  refine List.map_congr_left fun j _ => ?_
  exact scatter_ones_count s.atomic_numbers j

/-- When all atomic numbers of all samples are in range, the feature matrix
assembled by `_linref` is the spec's count matrix. -/
theorem linref_features_eq (ds : List Sample)
    (h : ∀ t ∈ ds, ∀ a ∈ t.atomic_numbers, a < 10) :
    ((ds.map extract_data_linref).map fun o => o.1).mapM id
      = some (specCountMatrix ds) := by
  induction ds with
  | nil => simp [specCountMatrix]; rfl
  | cons s t ih =>
    have hs : ∀ a ∈ s.atomic_numbers, a < 10 := h s (by simp)
    have ht := ih fun u hu => h u (by simp [hu])
    simp only [List.map_cons, List.mapM_cons, extract_data_linref]
    rw [linref_extract_x_eq s hs]
    simp only [specCountMatrix, List.map_cons] at ht ⊢
    rw [ht]
    rfl

/-- Conversely, if the feature matrix was assembled at all, it is the
spec's count matrix. -/
theorem linref_mapM_some (ds : List Sample) (X : List (List ℚ))
    (hX : ((ds.map extract_data_linref).map fun o => o.1).mapM id = some X) :
    X = specCountMatrix ds := by
  induction ds generalizing X with
  | nil =>
    have h0 : (some ([] : List (List ℚ)) : Option (List (List ℚ))) = some X := by
      rw [← hX]; rfl
    simp at h0
    simp [specCountMatrix, ← h0]
  | cons s t ih =>
    simp only [List.map_cons, List.mapM_cons, extract_data_linref] at hX
    by_cases hs : ∀ a ∈ s.atomic_numbers, a < 10
    · rw [linref_extract_x_eq s hs] at hX
      simp only [Option.bind_eq_bind, Option.some_bind] at hX
      rcases hrest : ((t.map extract_data_linref).map fun o => o.1).mapM id with _ | rows
      · rw [hrest] at hX; simp at hX
      · rw [hrest] at hX
        simp at hX
        rw [specCountMatrix, List.map_cons, ← specCountMatrix, ← ih rows hrest, ← hX]
    · have : linref_extract_x s = none := by
        unfold linref_extract_x scatter_sum
        rw [if_neg hs]
      rw [this] at hX
      simp at hX

/-- The residual of any coefficient vector is a sum of squares, hence
nonnegative. -/
theorem residual_nonneg (X : List (List ℚ)) (y : List ℚ) (c : List ℚ) :
    0 ≤ residual X y c := by
  unfold residual
  apply List.sum_nonneg
  intro q hq
  simp only [List.mem_map] at hq
  obtain ⟨p, _, rfl⟩ := hq
  positivity

/-- Claim C1: the `linref` subcommand computes the linear reference
coefficients as a least-squares solution of `X·coeff ≈ y`, where row `i` of
`X` is the per-atomic-number atom-count vector of dataset sample `i` and
`y i` is that sample's energy target.  Assuming `np.linalg.lstsq` meets its
documented least-squares contract on the system it is invoked on, the saved
coefficient vector is a least-squares solution of the count-matrix system
described by the spec, so the coefficients are per-element regression
weights. -/
theorem linref_coeff_least_squares (ds : List Sample)
    (lstsq : List (List ℚ) → List ℚ → List ℚ)
    (X : List (List ℚ)) (c : List ℚ)
    (hX : ((ds.map extract_data_linref).map fun o => o.1).mapM id = some X)
    (hc : linref_coeff lstsq ds = some c)
    (hlstsq : IsLeastSquares X (linref_targets ds)
      (lstsq X (linref_targets ds))) :
    IsLeastSquares (specCountMatrix ds) (spec_targets ds) c := by
  have hXspec : X = specCountMatrix ds := linref_mapM_some ds X hX
  have htar : linref_targets ds = spec_targets ds := by
    simp [linref_targets, spec_targets, extract_data_linref, List.map_map]
  have hc' : lstsq X (linref_targets ds) = c := by
    simp only [linref_coeff, linref_reduce] at hc
    rw [hX] at hc
    simp only [Option.map_some', Option.some.injEq] at hc
    rw [← hc]
    rfl
  rw [← hc', ← hXspec, ← htar]
  exact hlstsq

/-- Witness for C1 at a one-sample dataset with an exact solution. -/
theorem linref_coeff_least_squares_witness :
    IsLeastSquares (specCountMatrix [⟨[1], 3, [[0, 0, 0]]⟩])
      (spec_targets [⟨[1], 3, [[0, 0, 0]]⟩])
      [0, 3, 0, 0, 0, 0, 0, 0, 0, 0] := by
  have hfeat := linref_features_eq [⟨[1], 3, [[0, 0, 0]]⟩] (by decide)
  refine linref_coeff_least_squares _
    (fun _ _ => [0, 3, 0, 0, 0, 0, 0, 0, 0, 0]) _ _ hfeat ?_ ?_
  · simp only [linref_coeff, linref_reduce]
    rw [hfeat]
    rfl
  · intro c'
    have h0 : residual (specCountMatrix [⟨[1], 3, [[0, 0, 0]]⟩])
        (linref_targets [⟨[1], 3, [[0, 0, 0]]⟩])
        [0, 3, 0, 0, 0, 0, 0, 0, 0, 0] = 0 := by
      norm_num [residual, dot, specCountMatrix, countVector, linref_targets,
        extract_data_linref, List.range_succ, List.count_cons]
    rw [h0]
    exact residual_nonneg _ _ _

/-- Summing the indicator of `x` over `range w` yields `1` iff `x < w`. -/
theorem sum_ite_range (x w : ℕ) :
    ((List.range w).map fun z => if x = z then (1 : ℕ) else 0).sum
      = if x < w then 1 else 0 := by
  induction w with
  | zero => simp
  | succ w ih =>
    rw [List.range_succ, List.map_append, List.sum_append, ih]
    simp only [List.map_cons, List.map_nil, List.sum_cons, List.sum_nil]
    split_ifs <;> omega

/-- The count vector of a list with all entries below `w` sums to the
length of the list. -/
theorem countVector_sum (a : List ℕ) (w : ℕ) (h : ∀ x ∈ a, x < w) :
    (countVector a w).sum = a.length := by
  induction a with
  | nil => simp [countVector]
  | cons x xs ih =>
    have hx : x < w := h x (by simp)
    have ih' := ih fun y hy => h y (by simp [hy])
    unfold countVector at ih' ⊢
    have hcc : ((List.range w).map fun z => (x :: xs).count z)
        = (List.range w).map fun z =>
            xs.count z + if x = z then 1 else 0 := by
      refine List.map_congr_left fun z _ => ?_
      rw [List.count_cons]
      by_cases hzx : x = z <;> simp [hzx]
    rw [hcc, List.sum_map_add, sum_ite_range, if_pos hx, ih']
    simp

/-- Entry `z` of the (cast) count vector is the count of `z`. -/
theorem countRow_getD (a : List ℕ) (w z : ℕ) (hz : z < w) :
    ((countVector a w).map fun n : ℕ => (n : ℚ)).getD z 0
      = (a.count z : ℚ) := by
  unfold countVector
  rw [List.map_map]
  simp [List.getD_eq_getElem?_getD, List.getElem?_map, List.getElem?_range, hz]

/-- Claim C9: for a dataset whose atomic numbers are all below 10, each
extracted feature row is a vector of exactly 10 entries whose entry `z`
counts the atoms with atomic number `z`, the row sums to the sample's atom
count, and (given that `np.linalg.lstsq` returns one coefficient per matrix
column) the saved coefficient vector has exactly 10 per-element entries. -/
theorem linref_feature_rows (s : Sample) (ds : List Sample)
    (lstsq : List (List ℚ) → List ℚ → List ℚ)
    (hs : s ∈ ds)
    (h : ∀ t ∈ ds, ∀ a ∈ t.atomic_numbers, a < 10)
    (hlen : ∀ X y, (∀ r ∈ X, r.length = 10) → (lstsq X y).length = 10) :
    (∃ row, linref_extract_x s = some row ∧
      row.length = 10 ∧
      (∀ z, z < 10 → row.getD z 0 = (s.atomic_numbers.count z : ℚ)) ∧
      row.sum = (s.atomic_numbers.length : ℚ)) ∧
    ∃ c, linref_coeff lstsq ds = some c ∧ c.length = 10 := by
  have hsa := h s hs
  constructor
  · refine ⟨(countVector s.atomic_numbers 10).map fun n : ℕ => (n : ℚ),
      linref_extract_x_eq s hsa, ?_, ?_, ?_⟩
    · simp [countVector]
    · intro z hz
      exact countRow_getD s.atomic_numbers 10 z hz
    · rw [← Nat.cast_list_sum]
      exact_mod_cast congrArg (Nat.cast : ℕ → ℚ)
        (countVector_sum s.atomic_numbers 10 hsa)
  · refine ⟨lstsq (specCountMatrix ds) (linref_targets ds), ?_, ?_⟩
    · simp only [linref_coeff, linref_reduce]
      rw [linref_features_eq ds h]
      rfl
    · refine hlen _ _ fun r hr => ?_
      simp only [specCountMatrix, List.mem_map] at hr
      obtain ⟨t, _, rfl⟩ := hr
      simp [countVector]

/-- Witness for C9 at a concrete one-sample dataset. -/
theorem linref_feature_rows_witness :
    (∃ row, linref_extract_x (⟨[1, 1, 8], 5, [[1, 0, 0]]⟩ : Sample)
        = some row ∧
      row.length = 10 ∧
      (∀ z, z < 10 → row.getD z 0 = (([1, 1, 8] : List ℕ).count z : ℚ)) ∧
      row.sum = (([1, 1, 8] : List ℕ).length : ℚ)) ∧
    ∃ c, linref_coeff (fun _ _ => List.replicate 10 0)
        [⟨[1, 1, 8], 5, [[1, 0, 0]]⟩] = some c ∧ c.length = 10 :=
  linref_feature_rows ⟨[1, 1, 8], 5, [[1, 0, 0]]⟩
    [⟨[1, 1, 8], 5, [[1, 0, 0]]⟩] (fun _ _ => List.replicate 10 0)
    (by simp) (by decide) (fun X y _ => by simp)

/-- `extract_data` of the `compute_mean_std` subcommand: `(data.y, data.force)`. -/
def extract_data_ms (s : Sample) : ℚ × List (List ℚ) := (s.y, s.force)

/-- `np.mean` of a list of numbers: sum divided by length. -/
def listMean (xs : List ℚ) : ℚ := xs.sum / xs.length

/-- `np.linalg.norm` of one force row (axis `-1`): the Euclidean norm,
with `np.sqrt` modelled by the abstract square root `sqrt`. -/
def rowNorm (sqrt : ℚ → ℚ) (v : List ℚ) : ℚ :=
  sqrt (v.map fun c => c ^ 2).sum

/-- The reduction of `_compute_mean_std` after the outputs are collected:
`energies` are the first components, `forces` stacks the per-atom force
rows of all samples, and the four statistics `np.mean(energies)`,
`np.std(energies)`, `np.sqrt(np.mean(np.square(forces)))` and
`np.mean(np.linalg.norm(forces, axis=-1))` are written to the pickle as a
dictionary with exactly these four keys, in insertion order.  The
numerical `np.sqrt` is the abstract `sqrt`. -/
def ms_reduce (sqrt : ℚ → ℚ) (outputs : List (ℚ × List (List ℚ))) :
    List (String × ℚ) :=
  let energies : List ℚ := outputs.map fun o => o.1
  let forces : List (List ℚ) := outputs.flatMap fun o => o.2
  let energy_mean : ℚ := listMean energies
  let energy_std : ℚ :=
    sqrt (listMean (energies.map fun y => (y - energy_mean) ^ 2))
  let force_rms : ℚ :=
    sqrt (listMean ((forces.flatMap id).map fun c => c ^ 2))
  let force_md : ℚ := listMean (forces.map (rowNorm sqrt))
  [("energy_mean", energy_mean), ("energy_std", energy_std),
   ("force_rms", force_rms), ("force_md", force_md)]

/-- The `compute_mean_std` subcommand end to end (sequential collection). -/
def compute_mean_std (sqrt : ℚ → ℚ) (ds : List Sample) :
    List (String × ℚ) :=
  ms_reduce sqrt (ds.map extract_data_ms)

/-- Spec wording: the arithmetic mean of the per-sample energies. -/
def spec_energy_mean (ds : List Sample) : ℚ :=
  (ds.map fun s => s.y).sum / ds.length

/-- Spec wording: the population standard deviation of the per-sample
energies (square root of the mean squared deviation from the mean). -/
def spec_energy_std (sqrt : ℚ → ℚ) (ds : List Sample) : ℚ :=
  sqrt ((ds.map fun s => (s.y - spec_energy_mean ds) ^ 2).sum / ds.length)

/-- All force components of all atoms of all samples. -/
def spec_components (ds : List Sample) : List ℚ :=
  ds.flatMap fun s => s.force.flatMap id

/-- Spec wording: the square root of the mean of the squared force
components over all atoms of all samples. -/
def spec_force_rms (sqrt : ℚ → ℚ) (ds : List Sample) : ℚ :=
  sqrt (((spec_components ds).map fun c => c ^ 2).sum
    / (spec_components ds).length)

/-- All per-atom force vectors of all samples. -/
def spec_atoms (ds : List Sample) : List (List ℚ) :=
  ds.flatMap fun s => s.force

/-- Spec wording: the mean Euclidean norm of the per-atom force vectors. -/
def spec_force_md (sqrt : ℚ → ℚ) (ds : List Sample) : ℚ :=
  ((spec_atoms ds).map (rowNorm sqrt)).sum / (spec_atoms ds).length

/-- Claim C2: for every square-root routine and dataset,
`compute_mean_std` produces exactly the four scalar statistics
`energy_mean` (arithmetic mean of the per-sample energies), `energy_std`
(their population standard deviation), `force_rms` (square root of the
mean of the squared force components over all atoms of all samples) and
`force_md` (mean Euclidean norm of the per-atom force vectors). -/
theorem compute_mean_std_spec (sqrt : ℚ → ℚ) (ds : List Sample) :
    compute_mean_std sqrt ds =
      [("energy_mean", spec_energy_mean ds),
       ("energy_std", spec_energy_std sqrt ds),
       ("force_rms", spec_force_rms sqrt ds),
       ("force_md", spec_force_md sqrt ds)] := by
  have hE : (ds.map extract_data_ms).map (fun o => o.1)
      = ds.map fun s => s.y := by
    rw [List.map_map]; rfl
  have hF : ((ds.map extract_data_ms).flatMap fun o => o.2)
      = ds.flatMap fun s => s.force := by
    rw [List.flatMap_map]; rfl
  simp only [compute_mean_std, ms_reduce, hE, hF]
  have hcomp : ((ds.flatMap fun s => s.force).flatMap id)
      = spec_components ds := by
    rw [List.flatMap_assoc]; rfl
  rw [hcomp]
  simp only [listMean, spec_energy_mean, spec_energy_std, spec_force_rms,
    spec_force_md, spec_atoms, List.length_map, List.map_map,
    Function.comp_def]

/-- The indices (in input order) of the tasks worker `j` receives under
the task assignment `sched` of `n` tasks. -/
def pool_tasks (sched : ℕ → ℕ) (n j : ℕ) : List ℕ :=
  (List.range n).filter fun i => sched i == j

/-- The (index, result) pairs produced by worker `j` of the pool: it
applies the extraction function exactly once to each of its tasks, in
order. -/
def pool_worker_out {α β : Type} [Inhabited α] (sched : ℕ → ℕ) (f : α → β)
    (xs : List α) (j : ℕ) : List (ℕ × β) :=
  (pool_tasks sched xs.length j).map fun i => (i, f (xs.getD i default))

/-- The (index, result) pairs produced by all `w` workers of the pool. -/
def pool_outputs {α β : Type} [Inhabited α] (sched : ℕ → ℕ) (w : ℕ)
    (f : α → β) (xs : List α) : List (ℕ × β) :=
  (List.range w).flatMap (pool_worker_out sched f xs)

/-- `list(pool.imap(f, indices))` for `indices = range(len(xs))`: the pool
hands task `i` to worker `sched i`, and `imap` yields the result for index
`0`, then index `1`, …, regardless of which worker computed it. -/
def pool_imap {α β : Type} [Inhabited α] (sched : ℕ → ℕ) (w : ℕ)
    (f : α → β) (xs : List α) : List β :=
  (List.range xs.length).filterMap fun i =>
    (pool_outputs sched w f xs).lookup i

/-- Looking up a key in a key-tagged map hits the tag. -/
theorem lookup_map_pair {β : Type} (l : List ℕ) (g : ℕ → β) (k : ℕ) :
    (l.map fun i => (i, g i)).lookup k
      = if k ∈ l then some (g k) else none := by
  induction l with
  | nil => simp
  | cons i l ih =>
    by_cases hk : k = i
    · subst hk
      simp [List.lookup_cons]
    · have hb : (k == i) = false := by simp [hk]
      simp [List.lookup_cons, hb, ih, hk]

/-- Membership in a worker's task list. -/
theorem mem_pool_tasks (sched : ℕ → ℕ) (n j i : ℕ) :
    i ∈ pool_tasks sched n j ↔ i < n ∧ sched i = j := by
  simp [pool_tasks, List.mem_filter, List.mem_range]

/-- A worker's output list, looked up by task index. -/
theorem lookup_pool_worker_out {α β : Type} [Inhabited α] (sched : ℕ → ℕ)
    (f : α → β) (xs : List α) (j i : ℕ) :
    (pool_worker_out sched f xs j).lookup i
      = if i < xs.length ∧ sched i = j then some (f (xs.getD i default))
        else none := by
  unfold pool_worker_out
  rw [lookup_map_pair]
  by_cases h : i ∈ pool_tasks sched xs.length j
  · rw [if_pos h, if_pos ((mem_pool_tasks sched xs.length j i).1 h)]
  · rw [if_neg h, if_neg fun hc => h ((mem_pool_tasks sched xs.length j i).2 hc)]

/-- Lookup skips a block that does not contain the key. -/
theorem lookup_append_none {β : Type} {l₁ : List (ℕ × β)}
    (l₂ : List (ℕ × β)) (k : ℕ) (h : l₁.lookup k = none) :
    (l₁ ++ l₂).lookup k = l₂.lookup k := by
  induction l₁ with
  | nil => simp
  | cons p t ih =>
    obtain ⟨a, b⟩ := p
    by_cases hk : k = a
    · subst hk
      simp [List.lookup_cons] at h
    · have hb : (k == a) = false := by simp [hk]
      simp only [List.cons_append, List.lookup_cons, hb] at h ⊢
      exact ih h

/-- Lookup stops in the first block that contains the key. -/
theorem lookup_append_some {β : Type} {l₁ : List (ℕ × β)}
    (l₂ : List (ℕ × β)) (k : ℕ) (b : β) (h : l₁.lookup k = some b) :
    (l₁ ++ l₂).lookup k = some b := by
  induction l₁ with
  | nil => simp at h
  | cons p t ih =>
    obtain ⟨a, c⟩ := p
    by_cases hk : k = a
    · subst hk
      simp [List.lookup_cons] at h ⊢
      exact h
    · have hb : (k == a) = false := by simp [hk]
      simp only [List.cons_append, List.lookup_cons, hb] at h ⊢
      exact ih h

/-- With full coverage, the merged pool output contains the result for
every task index exactly where `imap` looks for it. -/
theorem lookup_pool_outputs {α β : Type} [Inhabited α] (sched : ℕ → ℕ)
    (w : ℕ) (f : α → β) (xs : List α) (i : ℕ)
    (hi : i < xs.length) (hw : sched i < w) :
    (pool_outputs sched w f xs).lookup i = some (f (xs.getD i default)) := by
  unfold pool_outputs
  have key : ∀ J : List ℕ, sched i ∈ J →
      (J.flatMap (pool_worker_out sched f xs)).lookup i
        = some (f (xs.getD i default)) := by
    intro J
    induction J with
    | nil => simp
    | cons j t ih =>
      intro hmem
      rw [List.flatMap_cons]
      by_cases hj : sched i = j
      · apply lookup_append_some
        rw [lookup_pool_worker_out, if_pos ⟨hi, hj⟩]
      · rw [lookup_append_none]
        · refine ih ?_
          rcases List.mem_cons.1 hmem with h | h
          · exact absurd h hj
          · exact h
        · rw [lookup_pool_worker_out, if_neg fun hc => hj hc.2]
  exact key (List.range w) (List.mem_range.mpr hw)

/-- `filterMap` by an everywhere-defined function is a map. -/
theorem filterMap_congr_some {β γ : Type} (l : List β) (g : β → Option γ)
    (g' : β → γ) (h : ∀ a ∈ l, g a = some (g' a)) :
    l.filterMap g = l.map g' := by
  induction l with
  | nil => simp
  | cons a t ih =>
    have ha := h a (by simp)
    simp [List.filterMap_cons, ha, ih fun b hb => h b (by simp [hb])]

/-- Reading a list back off by positions is the identity (composed with a
map). -/
theorem map_getD_range {α β : Type} [Inhabited α] (f : α → β)
    (xs : List α) :
    (List.range xs.length).map (fun i => f (xs.getD i default))
      = xs.map f := by
  induction xs with
  | nil => simp
  | cons x t ih =>
    have htail : (List.range t.length).map
        ((fun i => f ((x :: t).getD i default)) ∘ Nat.succ)
        = t.map f := by
      rw [← ih]
      exact List.map_congr_left fun i _ => rfl
    rw [List.length_cons, List.range_succ_eq_map, List.map_cons,
      List.map_map, htail, List.map_cons]
    simp

/-- A pool `imap` with every task assigned to an existing worker is the
order-preserving map over all dataset indices. -/
theorem pool_imap_eq_map {α β : Type} [Inhabited α] (sched : ℕ → ℕ)
    (w : ℕ) (f : α → β) (xs : List α)
    (hcov : ∀ i, i < xs.length → sched i < w) :
    pool_imap sched w f xs = xs.map f := by
  unfold pool_imap
  rw [filterMap_congr_some _ _ (fun i => f (xs.getD i default))
    fun i hi => by
      have hi' := List.mem_range.1 hi
      exact lookup_pool_outputs sched w f xs i hi' (hcov i hi')]
  exact map_getD_range f xs

/-- `_compute_mean_std` with its pool fan-out: the outputs are collected
into memory with `list(...)` before the reduction runs. -/
def compute_mean_std_par (sqrt : ℚ → ℚ) (sched : ℕ → ℕ) (w : ℕ)
    (ds : List Sample) : List (String × ℚ) :=
  ms_reduce sqrt (pool_imap sched w extract_data_ms ds)

/-- `_linref` with its pool fan-out: the outputs are collected into memory
with `list(...)` before the reduction runs. -/
def linref_coeff_par (lstsq : List (List ℚ) → List ℚ → List ℚ)
    (sched : ℕ → ℕ) (w : ℕ) (ds : List Sample) : Option (List ℚ) :=
  linref_reduce lstsq (pool_imap sched w extract_data_linref ds)

/-- Claim C3: in both subcommands the worker pool performs an
order-preserving map of the per-sample extraction function over every
dataset index exactly once, the full result list is collected before any
reduction, and therefore the computed statistics and regression
coefficients equal those of the sequential computation — for any task
assignment that only uses existing workers. -/
theorem pool_matches_sequential (sqrt : ℚ → ℚ)
    (lstsq : List (List ℚ) → List ℚ → List ℚ) (sched : ℕ → ℕ) (w : ℕ)
    (ds : List Sample) (hcov : ∀ i, i < ds.length → sched i < w) :
    pool_imap sched w extract_data_ms ds = ds.map extract_data_ms ∧
    pool_imap sched w extract_data_linref ds
      = ds.map extract_data_linref ∧
    compute_mean_std_par sqrt sched w ds = compute_mean_std sqrt ds ∧
    linref_coeff_par lstsq sched w ds = linref_coeff lstsq ds := by
  have h1 := pool_imap_eq_map sched w extract_data_ms ds hcov
  have h2 := pool_imap_eq_map sched w extract_data_linref ds hcov
  refine ⟨h1, h2, ?_, ?_⟩
  · unfold compute_mean_std_par compute_mean_std
    rw [h1]
  · unfold linref_coeff_par linref_coeff
    rw [h2]

/-- Witness for C3: two workers, round-robin schedule, two samples. -/
theorem pool_matches_sequential_witness :
    pool_imap (fun i => i % 2) 2 extract_data_ms
        [⟨[1], 3, [[0, 0, 0]]⟩, ⟨[6], 4, [[1, 1, 1]]⟩]
      = [⟨[1], 3, [[0, 0, 0]]⟩, ⟨[6], 4, [[1, 1, 1]]⟩].map
          extract_data_ms ∧
    pool_imap (fun i => i % 2) 2 extract_data_linref
        [⟨[1], 3, [[0, 0, 0]]⟩, ⟨[6], 4, [[1, 1, 1]]⟩]
      = [⟨[1], 3, [[0, 0, 0]]⟩, ⟨[6], 4, [[1, 1, 1]]⟩].map
          extract_data_linref ∧
    compute_mean_std_par (fun q => q) (fun i => i % 2) 2
        [⟨[1], 3, [[0, 0, 0]]⟩, ⟨[6], 4, [[1, 1, 1]]⟩]
      = compute_mean_std (fun q => q)
          [⟨[1], 3, [[0, 0, 0]]⟩, ⟨[6], 4, [[1, 1, 1]]⟩] ∧
    linref_coeff_par (fun _ _ => []) (fun i => i % 2) 2
        [⟨[1], 3, [[0, 0, 0]]⟩, ⟨[6], 4, [[1, 1, 1]]⟩]
      = linref_coeff (fun _ _ => [])
          [⟨[1], 3, [[0, 0, 0]]⟩, ⟨[6], 4, [[1, 1, 1]]⟩] :=
  pool_matches_sequential (fun q => q) (fun _ _ => []) (fun i => i % 2) 2
    [⟨[1], 3, [[0, 0, 0]]⟩, ⟨[6], 4, [[1, 1, 1]]⟩]
    (fun i _ => Nat.mod_lt i (by norm_num))

/-- The write a subcommand's function performs on `--out_path`:
`pickle.dump` for `_compute_mean_std`, `np.savez_compressed` for
`_linref`. -/
inductive OutFormat where
  | pickle
  | savez_compressed
deriving DecidableEq

/-- One subcommand registered by `main()`: its name, the command-line
flags added with `add_argument`, the declared default of `--num_workers`,
and the format its function writes to `--out_path`. -/
structure Subcommand where
  name : String
  flags : List String
  workers_default : ℕ
  out_format : OutFormat
deriving DecidableEq

/-- The argument-parsing table built by `main()`, transcribed from its
`add_parser`/`add_argument`/`set_defaults` calls and the final write of
each subcommand's function. -/
def cli_subcommands : List Subcommand :=
  [⟨"compute_mean_std",
    ["--src", "--out_path", "--linref_path", "--num_workers"], 32,
    OutFormat.pickle⟩,
   ⟨"linref", ["--src", "--out_path", "--num_workers"], 32,
    OutFormat.savez_compressed⟩]

/-- Claim C4: the script registers exactly the two subcommands
`compute_mean_std` and `linref`; each accepts a dataset path `--src` and
a worker count `--num_workers`; `compute_mean_std` writes a pickle to
`--out_path`, and `linref` writes a compressed archive
(`np.savez_compressed`) to `--out_path`. -/
theorem cli_structure :
    cli_subcommands.map Subcommand.name = ["compute_mean_std", "linref"] ∧
    cli_subcommands.length = 2 ∧
    (∀ sc ∈ cli_subcommands,
      "--src" ∈ sc.flags ∧ "--out_path" ∈ sc.flags ∧
        "--num_workers" ∈ sc.flags) ∧
    cli_subcommands.map Subcommand.out_format
      = [OutFormat.pickle, OutFormat.savez_compressed] := by
  decide

/-- `mp.Pool(args.num_workers)` in both subcommands: the number of worker
processes spawned is exactly the `--num_workers` argument; the CPU count
of the machine is never consulted. -/
def pool_num_processes (_cpu_count : ℕ) (num_workers : ℕ) : ℕ :=
  num_workers

/-- The declared default of `--num_workers` in both subcommands. -/
def num_workers_default : ℕ := 32

/-- Claim C5 counterexample: on a machine with 4 CPU cores, a run with
the default arguments spawns 32 worker processes, not 4, so the pool does
not spawn one worker process per CPU core. -/
theorem pool_workers_not_per_core :
    pool_num_processes 4 num_workers_default ≠ 4 := by decide

/-- Claim C5 (amended): the pool spawns exactly `--num_workers`-many
worker processes (default 32), independent of the machine's CPU count. -/
theorem pool_workers_eq_num_workers (cpu_count num_workers : ℕ) :
    pool_num_processes cpu_count num_workers = num_workers ∧
    num_workers_default = 32 :=
  ⟨rfl, rfl⟩

end Trans1x

namespace EqV2

/-- The arguments of `EquiformerV2Backbone.__init__` that drive its
argument validation and `None`-default resolution.  `none` for
`lmax_list`/`mmax_list` models passing `None` explicitly; the declared
defaults are collected in `defaultConfig`. -/
structure Config where
  lmax_list : Option (List ℕ)
  mmax_list : Option (List ℕ)
  use_atom_edge_embedding : Bool
  share_atom_edge_embedding : Bool
  distance_function : String
  weight_init : String
  use_energy_lin_ref : Bool
  load_energy_lin_ref : Bool
deriving DecidableEq

/-- The declared argument defaults of the constructor:
`lmax_list=[4]`, `mmax_list=[2]`, `use_atom_edge_embedding=True`,
`share_atom_edge_embedding=False`, `distance_function="gaussian"`,
`weight_init="uniform"`, `use_energy_lin_ref=False`,
`load_energy_lin_ref=False`. -/
def defaultConfig : Config :=
  ⟨some [4], some [2], true, false, "gaussian", "uniform", false, false⟩

/-- How a constructor run ends when it does not return normally. -/
inductive InitError where
  | importError
  | assertionError
  | valueError
deriving DecidableEq

/-- The state the constructor establishes (the fields the claims are
about). -/
structure Model where
  lmax_list : List ℕ
  mmax_list : List ℕ
  block_use_atom_edge_embedding : Bool
  num_resolutions : ℕ
  has_energy_lin_ref_param : Bool
deriving DecidableEq

/-- `EquiformerV2Backbone.__init__` as a sequence of steps in source
order: resolve the `None` defaults of `mmax_list`/`lmax_list`, raise
`ImportError` when `e3nn` is not among the imported modules, then run the
argument assertions (share/use atom-edge embedding; energy linear
references; `weight_init`; `distance_function`), then construct the
module.  Component construction is summarised by the resulting `Model`
state; the dead `raise ValueError` branch of the distance-function
dispatch is kept. -/
def backboneInit (e3nn_loaded : Bool) (cfg : Config) :
    Except InitError Model :=
  let mmax_list := match cfg.mmax_list with
    | none => [2]
    | some l => l
  let lmax_list := match cfg.lmax_list with
    | none => [6]
    | some l => l
  if e3nn_loaded = false then Except.error InitError.importError
  else if cfg.share_atom_edge_embedding ∧ ¬cfg.use_atom_edge_embedding then
    Except.error InitError.assertionError
  else
    let block_use_atom_edge_embedding :=
      if cfg.share_atom_edge_embedding then false
      else cfg.use_atom_edge_embedding
    if cfg.use_energy_lin_ref ∧ ¬cfg.load_energy_lin_ref then
      Except.error InitError.assertionError
    else if ¬(cfg.weight_init = "normal" ∨ cfg.weight_init = "uniform") then
      Except.error InitError.assertionError
    else if ¬(cfg.distance_function = "gaussian") then
      Except.error InitError.assertionError
    else if cfg.distance_function = "gaussian" then
      Except.ok ⟨lmax_list, mmax_list, block_use_atom_edge_embedding,
        lmax_list.length, cfg.load_energy_lin_ref⟩
    else Except.error InitError.valueError

/-- Claim C6: with `e3nn` imported, the constructor fails with an
assertion error iff the configuration is invalid — `use_energy_lin_ref`
true while `load_energy_lin_ref` is false, or `weight_init` not one of
`normal`/`uniform`, or `distance_function` not `gaussian`, or
`share_atom_edge_embedding` true while `use_atom_edge_embedding` is
false; for every other combination of these arguments the assertions
pass. -/
theorem backbone_init_assertion_iff (cfg : Config) :
    backboneInit true cfg = Except.error InitError.assertionError ↔
      ((cfg.use_energy_lin_ref ∧ ¬cfg.load_energy_lin_ref) ∨
       (cfg.weight_init ≠ "normal" ∧ cfg.weight_init ≠ "uniform") ∨
       cfg.distance_function ≠ "gaussian" ∨
       (cfg.share_atom_edge_embedding ∧
         ¬cfg.use_atom_edge_embedding)) := by
  unfold backboneInit
  split_ifs with h1 h2 h3 h4 h5 h6 <;> simp_all <;> tauto

/-- Claim C8: when the module `e3nn` has not been imported into the
running interpreter, the constructor raises `ImportError` whatever the
rest of the configuration is — before any component is constructed and
before any assertion fires. -/
theorem backbone_init_import_error (cfg : Config) :
    backboneInit false cfg = Except.error InitError.importError := rfl

/-- Claim C10: passing `lmax_list=None` explicitly yields
`self.lmax_list == [6]` whereas the declared default yields `[4]`, so
`None` is not equivalent to the default for `lmax_list`; for
`mmax_list`, `None` and the default both yield `[2]`. -/
theorem lmax_none_vs_default :
    (backboneInit true ⟨none, some [2], true, false, "gaussian",
      "uniform", false, false⟩).map Model.lmax_list = Except.ok [6] ∧
    (backboneInit true defaultConfig).map Model.lmax_list
      = Except.ok [4] ∧
    (backboneInit true ⟨some [4], none, true, false, "gaussian",
      "uniform", false, false⟩).map Model.mmax_list = Except.ok [2] ∧
    (backboneInit true defaultConfig).map Model.mmax_list
      = Except.ok [2] ∧
    ([6] : List ℕ) ≠ [4] := by
  refine ⟨rfl, rfl, rfl, rfl, by decide⟩

/-- The result dictionary of `EquiformerV2Backbone.forward`: the node
embedding and the graph. -/
structure ForwardOut (N G : Type) where
  node_embedding : N
  graph : G

/-- `EquiformerV2Backbone.forward` at the level of its result control
flow: if the largest atomic number of the batch reaches
`max_num_elements`, the guard at the top of `forward` prints a skip
message and returns `None`; otherwise the backbone computation `compute`
(graph construction, embeddings, transformer blocks, final norm) runs
and its result dictionary is returned. -/
def backboneForward {N G : Type} (max_num_elements : ℕ)
    (compute : List ℕ → ForwardOut N G) (atomic_numbers : List ℕ) :
    Option (ForwardOut N G) :=
  if max_num_elements ≤ atomic_numbers.foldr max 0 then none
  else some (compute atomic_numbers)

/-- Claim C7 counterexample: with the default `max_num_elements = 90`, a
batch containing atomic number 90 makes `forward` return `None`: the
sample is skipped rather than processed into a result dictionary or
rejected by a propagating framework error. -/
theorem backbone_forward_skips :
    backboneForward 90 (fun a => ForwardOut.mk a.length a) [90]
      = none := by
  rfl

/-- Every member of a list is bounded by the fold of `max`. -/
theorem le_foldr_max (ans : List ℕ) (a : ℕ) (ha : a ∈ ans) :
    a ≤ ans.foldr max 0 := by
  induction ans with
  | nil => simp at ha
  | cons x t ih =>
    rcases List.mem_cons.1 ha with h | h
    · subst h
      exact le_max_left _ _
    · exact le_trans (ih h) (le_max_right _ _)

/-- The fold of `max` of a list of bounded naturals is bounded. -/
theorem foldr_max_lt (ans : List ℕ) (m : ℕ) (hpos : 0 < m)
    (hall : ∀ a ∈ ans, a < m) : ans.foldr max 0 < m := by
  induction ans with
  | nil => simpa
  | cons x t ih =>
    simp only [List.foldr_cons]
    exact max_lt (hall x (by simp)) (ih fun a ha => hall a (by simp [ha]))

/-- Claim C7 (amended): for every batch, `forward` either skips it —
returns `None`, exactly when some atomic number reaches
`max_num_elements` — or returns the result dictionary of the backbone
computation; errors of the computation itself would propagate. -/
theorem backbone_forward_cases {N G : Type} (max_num_elements : ℕ)
    (compute : List ℕ → ForwardOut N G) (ans : List ℕ) :
    ((∃ a ∈ ans, max_num_elements ≤ a) →
      backboneForward max_num_elements compute ans = none) ∧
    ((∀ a ∈ ans, a < max_num_elements) → 0 < max_num_elements →
      backboneForward max_num_elements compute ans
        = some (compute ans)) := by
  constructor
  · rintro ⟨a, ha, hle⟩
    have hmax : max_num_elements ≤ ans.foldr max 0 :=
      le_trans hle (le_foldr_max ans a ha)
    unfold backboneForward
    rw [if_pos hmax]
  · intro hall hpos
    have hmax : ans.foldr max 0 < max_num_elements :=
      foldr_max_lt ans max_num_elements hpos hall
    unfold backboneForward
    rw [if_neg (not_le.mpr hmax)]

/-- Witness for C7 (amended): a skipped batch and a processed batch. -/
theorem backbone_forward_cases_witness :
    backboneForward 90 (fun a : List ℕ => ForwardOut.mk a.length a) [91]
      = none ∧
    backboneForward 90 (fun a : List ℕ => ForwardOut.mk a.length a)
      [1, 6, 8] = some (ForwardOut.mk 3 [1, 6, 8]) :=
  ⟨(backbone_forward_cases 90 (fun a => ForwardOut.mk a.length a)
      [91]).1 ⟨91, by decide, by decide⟩,
   (backbone_forward_cases 90 (fun a => ForwardOut.mk a.length a)
      [1, 6, 8]).2 (by decide) (by decide)⟩

end EqV2
